import Mathlib

/-!
Shallow embedding of the areena-saami-scraper core: the SRT parser and
normalizer plus corpus merger of process_subs.py, and the corpus statistics
engine of analyze_corpus.py.  Text is modelled as `List Char`; Python floats
are modelled as exact rationals, with `Option` capturing the NaN results numpy
produces on empty inputs; the external langdetect classifier is an explicit
function parameter.
-/

/-- Whitespace recognised by Python str.split() and str.strip() (ASCII range). -/
def isPySpace (c : Char) : Bool :=
  c = ' ' || c = '\t' || c = '\n' || c = '\r' || c = '\x0b' || c = '\x0c'

/-- Python str.strip(): drop leading and trailing whitespace. -/
def pyStrip (l : List Char) : List Char :=
  ((l.dropWhile isPySpace).reverse.dropWhile isPySpace).reverse

/-- Maximal runs of characters satisfying p, in order; cur accumulates the
current run reversed. -/
def runsAux (p : Char → Bool) : List Char → List Char → List (List Char)
  | cur, [] => if cur = [] then [] else [cur.reverse]
  | cur, c :: rest =>
    if p c then runsAux p (c :: cur) rest
    else if cur = [] then runsAux p [] rest else cur.reverse :: runsAux p [] rest

/-- Python str.split() with no argument: maximal non-whitespace runs. -/
def pySplit (l : List Char) : List (List Char) :=
  runsAux (fun c => !isPySpace c) [] l

/-- Scanner for re.sub of the pattern "<", one or more non-">", ">" against the
empty replacement, as in clean_subtitle_text (process_subs.py line 7).  The
first argument buffers (reversed) a pending candidate tag opened by a '<'.  On
a '>' the buffer is dropped exactly when it holds the '<' plus at least one
further character, since the pattern requires a non-empty tag body; a lone
"<>" is emitted unchanged.  At end of input an unclosed buffer is emitted
literally, because without a closing '>' the pattern cannot match. -/
def stripTagsAux : Option (List Char) → List Char → List Char
  | none, [] => []
  | some buf, [] => buf.reverse
  | none, c :: rest =>
    if c = '<' then stripTagsAux (some [c]) rest
    else c :: stripTagsAux none rest
  | some buf, c :: rest =>
    if c = '>' then
      if 2 ≤ buf.length then stripTagsAux none rest
      else buf.reverse ++ '>' :: stripTagsAux none rest
    else stripTagsAux (some (c :: buf)) rest

/-- re.sub removing simple tags, applied to a whole string. -/
def stripTags (l : List Char) : List Char := stripTagsAux none l

/-- clean_subtitle_text (process_subs.py lines 4-10): strip tags, then collapse
whitespace runs to single spaces, then strip the ends. -/
def clean_subtitle_text (l : List Char) : List Char :=
  pyStrip (List.intercalate [' '] (pySplit (stripTags l)))

/-- Python substring test "'-->' in line". -/
def containsArrow : List Char → Bool
  | '-' :: '-' :: '>' :: _ => true
  | _ :: rest => containsArrow rest
  | [] => false

/-- Python str.isdigit() on an ASCII line: nonempty and all decimal digits. -/
def pyIsDigit (l : List Char) : Bool := !l.isEmpty && l.all Char.isDigit

/-- State of the line loop of process_srt_file: emitted texts, the accumulated
lines of the current block, and the in_subtitle_text flag. -/
structure ParseState where
  texts : List (List Char)
  current : List (List Char)
  inText : Bool

/-- End-of-block flush (process_subs.py lines 25-29 and 51-54): join the
accumulated lines with single spaces, clean, and append only when non-empty. -/
def flushState (s : ParseState) : ParseState :=
  if s.current = [] then s
  else
    let t := clean_subtitle_text (List.intercalate [' '] s.current)
    ⟨s.texts ++ (if t = [] then [] else [t]), [], s.inText⟩

/-- One iteration of the line loop of process_srt_file (lines 20-44): strip the
line; a blank line flushes and leaves text mode; a timestamp line enters text
mode; a digit-only line is skipped; any other line is accumulated when in text
mode. -/
def srtStep (s : ParseState) (rawLine : List Char) : ParseState :=
  let line := pyStrip rawLine
  if line = [] then
    let s' := flushState s
    ⟨s'.texts, s'.current, false⟩
  else if containsArrow line then ⟨s.texts, s.current, true⟩
  else if pyIsDigit line then s
  else if s.inText then ⟨s.texts, s.current ++ [line], s.inText⟩
  else s

/-- process_srt_file on the decoded lines of one file, including the final
flush of a trailing block (lines 50-54). -/
def process_srt_lines (ls : List (List Char)) : List (List Char) :=
  (flushState (ls.foldl srtStep ⟨[], [], false⟩)).texts

/-- One .srt file as the parser sees it: its decoded lines, plus whether
reading or decoding raises (the try/except of lines 18-48). -/
structure SrtFile where
  lines : List (List Char)
  readFails : Bool

/-- process_srt_file (lines 12-56): a read or decode failure makes the except
branch return [], discarding anything accumulated so far. -/
def process_srt_file (f : SrtFile) : List (List Char) :=
  if f.readFails then [] else process_srt_lines f.lines

/-- The all_subtitles accumulation of process_srt_directory (lines 68-74). -/
def all_subtitles (files : List SrtFile) : List (List Char) :=
  (files.map process_srt_file).flatten

/-- First-seen deduplication against a seen set, as in the comprehension at
process_subs.py lines 77-78. -/
def dedupFirstAux {α : Type} [DecidableEq α] : List α → List α → List α
  | _, [] => []
  | seen, x :: xs =>
    if x ∈ seen then dedupFirstAux seen xs else x :: dedupFirstAux (x :: seen) xs

/-- unique_subtitles of process_srt_directory, starting from an empty seen set. -/
def dedupFirst {α : Type} [DecidableEq α] (l : List α) : List α := dedupFirstAux [] l

/-- The deduplicated sequence the merger produces for a file list. -/
def unique_subtitles (files : List SrtFile) : List (List Char) :=
  dedupFirst (all_subtitles files)

/-- The lines written to the output artifact (lines 81-84, including the extra
truthiness check before each write). -/
def output_lines (files : List SrtFile) : List (List Char) :=
  (unique_subtitles files).filter (fun x => decide (x ≠ []))

/-- Characters matched by the regex word pattern (ASCII letters, digits,
underscore). -/
def isWordChar (c : Char) : Bool := c.isAlpha || c.isDigit || c = '_'

/-- re.findall of word runs: with the word pattern, the matches are exactly the
maximal runs of word characters. -/
def wordRuns (l : List Char) : List (List Char) := runsAux isWordChar [] l

/-- _tokenize (analyze_corpus.py lines 21-25): word runs of the lower-cased
text. -/
def tokenize (t : String) : List (List Char) :=
  wordRuns (t.data.map Char.toLower)

/-- Sentence separators of the split pattern: '.', '!', '?'. -/
def isSentSep (c : Char) : Bool := c = '.' || c = '!' || c = '?'

/-- re.split on one-or-more sentence separators: the segments between maximal
separator runs, keeping empty boundary segments.  inSep records being inside a
separator run, cur the current segment reversed. -/
def splitSepsAux : Bool → List Char → List Char → List (List Char)
  | _, cur, [] => [cur.reverse]
  | inSep, cur, c :: rest =>
    if isSentSep c then
      if inSep then splitSepsAux true cur rest
      else cur.reverse :: splitSepsAux true [] rest
    else splitSepsAux false (c :: cur) rest

/-- re.split(pattern of [.!?] runs, text). -/
def splitSeps (l : List Char) : List (List Char) := splitSepsAux false [] l

/-- _split_into_sentences (lines 14-19): split on punctuation runs, strip each
segment, discard empties. -/
def split_into_sentences (t : String) : List (List Char) :=
  ((splitSeps t.data).map pyStrip).filter (fun s => decide (s ≠ []))

/-- Keys of a Python dict or Counter built by insertion: the first occurrences,
in first-seen order. -/
def firstKeys {α : Type} [DecidableEq α] : List α → List α
  | [] => []
  | x :: xs => x :: (firstKeys xs).filter fun y => !decide (y = x)

/-- Number of occurrences of x in l: the count a Counter assigns to key x. -/
def countOcc {α : Type} [DecidableEq α] (x : α) : List α → ℕ
  | [] => 0
  | y :: ys => (if y = x then 1 else 0) + countOcc x ys

/-- A Python Counter as an association list in key-insertion order. -/
def counterItems {α : Type} [DecidableEq α] (l : List α) : List (α × ℕ) :=
  (firstKeys l).map fun x => (x, countOcc x l)

/-- Index of the first occurrence of x in l (length of l when absent). -/
def firstIdx {α : Type} [DecidableEq α] (x : α) : List α → ℕ
  | [] => 0
  | y :: ys => if y = x then 0 else firstIdx x ys + 1

/-- Stable insertion for the descending-by-count sort under Counter.most_common:
an element moves past strictly larger counts only, so earlier elements stay in
front of equal counts. -/
def insertDesc {α : Type} (x : α × ℕ) : List (α × ℕ) → List (α × ℕ)
  | [] => [x]
  | h :: t => if x.2 < h.2 then h :: insertDesc x t else x :: h :: t

/-- Stable sort, descending by count. -/
def sortDesc {α : Type} : List (α × ℕ) → List (α × ℕ)
  | [] => []
  | x :: xs => insertDesc x (sortDesc xs)

/-- Counter(l).most_common(n): entries sorted descending by count, ties in
first-seen order, truncated to the first n. -/
def most_common {α : Type} [DecidableEq α] (n : ℕ) (l : List α) : List (α × ℕ) :=
  (sortDesc (counterItems l)).take n

/-- word_frequency (lines 52-54): Counter(self.words).most_common(top_n). -/
def word_frequency (t : String) (topN : ℕ) : List (List Char × ℕ) :=
  most_common topN (tokenize t)

/-- The top_n = 20 default of the word_frequency parameter (line 52). -/
def word_frequency_default (t : String) : List (List Char × ℕ) := word_frequency t 20

/-- The report's frequency table: word_frequency(10) at line 78. -/
def report_word_frequency (t : String) : List (List Char × ℕ) := word_frequency t 10

/-- basic_stats counters (lines 30-32). -/
def total_words (t : String) : ℕ := (tokenize t).length

/-- len(set(self.words)): the number of distinct word tokens. -/
def unique_words (t : String) : ℕ := (firstKeys (tokenize t)).length

def total_sentences (t : String) : ℕ := (split_into_sentences t).length

/-- Words per sentence (line 35): the word-run count of each sentence. -/
def sentence_lengths (t : String) : List ℕ :=
  (split_into_sentences t).map fun s => (wordRuns s).length

/-- np.mean; the NaN produced on an empty list is modelled as none. -/
def meanQ (l : List ℕ) : Option ℚ :=
  if l = [] then none
  else some ((l.map fun n => (n : ℚ)).sum / (l.length : ℚ))

/-- Ascending insertion sort, used to model the sorting inside np.median. -/
def insertAsc (x : ℕ) : List ℕ → List ℕ
  | [] => [x]
  | h :: t => if x ≤ h then x :: h :: t else h :: insertAsc x t

def sortAsc : List ℕ → List ℕ
  | [] => []
  | x :: xs => insertAsc x (sortAsc xs)

/-- np.median: middle of the sorted data, or the mean of the two middle
entries; the NaN produced on an empty list is modelled as none. -/
def medianQ (l : List ℕ) : Option ℚ :=
  if l = [] then none
  else
    let s := sortAsc l
    if l.length % 2 = 1 then some ((s.getD (l.length / 2) 0 : ℕ) : ℚ)
    else some ((((s.getD (l.length / 2 - 1) 0 : ℕ) : ℚ) +
      ((s.getD (l.length / 2) 0 : ℕ) : ℚ)) / 2)

/-- Round half to even to an integer, the rounding of Python round and numpy. -/
def rheQ (q : ℚ) : ℤ :=
  if q - ⌊q⌋ < 1 / 2 then ⌊q⌋
  else if 1 / 2 < q - ⌊q⌋ then ⌊q⌋ + 1
  else if 2 ∣ ⌊q⌋ then ⌊q⌋ else ⌊q⌋ + 1

/-- Python round(x, d) on exact rationals. -/
def roundQ (d : ℕ) (q : ℚ) : ℚ := (rheQ (q * 10 ^ d) : ℚ) / 10 ^ d

/-- round(np.mean(sentence_lengths), 2) as reported at line 46. -/
def average_sentence_length (t : String) : Option ℚ :=
  (meanQ (sentence_lengths t)).map (roundQ 2)

/-- round(np.median(sentence_lengths), 2) as reported at line 47. -/
def median_sentence_length (t : String) : Option ℚ :=
  (medianQ (sentence_lengths t)).map (roundQ 2)

/-- ttr at line 40: unique_words / total_words behind an explicit conditional
guard against zero total_words. -/
def ttr (t : String) : ℚ :=
  if 0 < total_words t then (unique_words t : ℚ) / (total_words t : ℚ) else 0

/-- round(ttr, 4) as reported at line 48. -/
def type_token_ratio (t : String) : ℚ := roundQ 4 (ttr t)

/-- Population variance of the lengths: the square of np.std. -/
def varQ (l : List ℕ) : ℚ :=
  ((l.map fun n => ((n : ℚ) - (l.map fun m => (m : ℚ)).sum / (l.length : ℚ)) ^ 2).sum) /
    (l.length : ℚ)

/-- Round half to even on the reals, for the reported standard deviation. -/
noncomputable def rheR (x : ℝ) : ℤ :=
  if x - ⌊x⌋ < 1 / 2 then ⌊x⌋
  else if 1 / 2 < x - ⌊x⌋ then ⌊x⌋ + 1
  else if 2 ∣ ⌊x⌋ then ⌊x⌋ else ⌊x⌋ + 1

noncomputable def roundR (d : ℕ) (x : ℝ) : ℝ := (rheR (x * 10 ^ d) : ℝ) / 10 ^ d

/-- round(np.std(sentence_lengths), 2) as reported at line 49; the NaN produced
on an empty list is modelled as none. -/
noncomputable def sentence_length_std (t : String) : Option ℝ :=
  if sentence_lengths t = [] then none
  else some (roundR 2 (Real.sqrt ((varQ (sentence_lengths t) : ℚ) : ℝ)))

/-- sentence_length_distribution (lines 56-59): dict(Counter(lengths)). -/
def sentence_length_distribution (t : String) : List (ℕ × ℕ) :=
  counterItems (sentence_lengths t)

/-- The bucket used when the classifier raises for a sentence (line 71). -/
def unknownKey : List Char := "unknown".data

/-- detect_languages (lines 61-73).  The external langdetect classifier is the
explicit parameter d; a per-sentence classification failure is modelled as
none and is counted under the "unknown" bucket. -/
def detect_languages (d : List Char → Option (List Char)) (t : String) :
    List (List Char × ℕ) :=
  counterItems ((split_into_sentences t).map fun s => (d s).getD unknownKey)

/-- Everything the analyzer derives from a text, including the optional
per-sentence language tags: the basic_stats values (lines 42-50), the report's
frequency table, the sentence-length distribution, and detect_languages. -/
noncomputable def analyzer_outputs (d : List Char → Option (List Char)) (t : String) :
    (ℕ × ℕ × ℕ × Option ℚ × Option ℚ × ℚ × Option ℝ) ×
      List (List Char × ℕ) × List (ℕ × ℕ) × List (List Char × ℕ) :=
  ((total_words t, unique_words t, total_sentences t, average_sentence_length t,
    median_sentence_length t, type_token_ratio t, sentence_length_std t),
   report_word_frequency t, sentence_length_distribution t, detect_languages d t)

/-- Modelled from the spec: the claim's greedy tag removal, under which every
span from a '<' up to the next '>' is removed, with no requirement of a
non-empty tag body.  Identical to stripTagsAux except that a '>' always closes
and drops a pending buffer. -/
def stripSpansSpecAux : Option (List Char) → List Char → List Char
  | none, [] => []
  | some buf, [] => buf.reverse
  | none, c :: rest =>
    if c = '<' then stripSpansSpecAux (some [c]) rest
    else c :: stripSpansSpecAux none rest
  | some buf, c :: rest =>
    if c = '>' then stripSpansSpecAux none rest
    else stripSpansSpecAux (some (c :: buf)) rest

/-- The spec-worded greedy span removal on a whole string. -/
def stripSpansSpec (l : List Char) : List Char := stripSpansSpecAux none l

/-- The statistics example text of the spec. -/
def exText : String := "Cats run. Dogs run fast! Cats run."

/-- A file whose read fails after lines that would otherwise parse to a block. -/
def demoBadFile : SrtFile :=
  ⟨[ "1".data, "00:00:01,000 --> 00:00:02,000".data, "Hello world".data ], true⟩

theorem stripTagsAux_no_gt (buf l : List Char) (h : '>' ∉ l) :
    stripTagsAux (some buf) l = buf.reverse ++ l := by
  induction l generalizing buf with
  | nil => simp [stripTagsAux]
  | cons c rest ih =>
    have hc : c ≠ '>' := fun he => h (he ▸ List.mem_cons_self c rest)
    have hr : '>' ∉ rest := fun hm => h (List.mem_cons_of_mem c hm)
    simp [stripTagsAux, hc, ih _ hr]

theorem stripTagsAux_no_lt (l : List Char) (h : '<' ∉ l) :
    stripTagsAux none l = l := by
  induction l with
  | nil => rfl
  | cons c rest ih =>
    have hc : c ≠ '<' := fun he => h (he ▸ List.mem_cons_self c rest)
    have hr : '<' ∉ rest := fun hm => h (List.mem_cons_of_mem c hm)
    simp [stripTagsAux, hc, ih hr]

theorem stripTagsAux_no_gt_none (l : List Char) (h : '>' ∉ l) :
    stripTagsAux none l = l := by
  induction l with
  | nil => rfl
  | cons c rest ih =>
    have hr : '>' ∉ rest := fun hm => h (List.mem_cons_of_mem c hm)
    by_cases hc : c = '<'
    · subst hc
      have h1 : stripTagsAux none ('<' :: rest) = stripTagsAux (some ['<']) rest := by
        simp [stripTagsAux]
      rw [h1, stripTagsAux_no_gt ['<'] rest hr]
      rfl
    · simp [stripTagsAux, hc, ih hr]

theorem stripTagsAux_span (mid : List Char) : ∀ buf rest : List Char, buf ≠ [] →
    mid ≠ [] → '>' ∉ mid →
    stripTagsAux (some buf) (mid ++ '>' :: rest) = stripTagsAux none rest := by
  induction mid with
  | nil => exact fun _ _ _ hne _ => absurd rfl hne
  | cons d m ih =>
    intro buf rest hbuf _ hgt
    have hd : d ≠ '>' := fun he => hgt (he ▸ List.mem_cons_self d m)
    have hm : '>' ∉ m := fun hx => hgt (List.mem_cons_of_mem d hx)
    cases m with
    | nil =>
      simp [stripTagsAux, hd]
      intro h
      exact absurd h hbuf
    | cons e m' =>
      have h2 := ih (d :: buf) rest (by simp) (by simp) hm
      simpa [stripTagsAux, hd] using h2

theorem stripTags_empty_pair (rest : List Char) :
    stripTags ('<' :: '>' :: rest) = '<' :: '>' :: stripTags rest := by
  simp [stripTags, stripTagsAux]

/-- Claim C8 (amended): normalization removes every span from a '<' through a
non-empty body up to the next '>' (tolerating malformed markup), leaves '<'
and '>' characters outside such spans untouched — in particular an unclosed
'<' tail and the bodyless pair "<>" pass through — and the text line
"<i>Hello</i> world" normalizes to "Hello world". -/
theorem C8_markup_stripping (mid rest l : List Char) :
    (mid ≠ [] → '>' ∉ mid → stripTags ('<' :: (mid ++ '>' :: rest)) = stripTags rest)
    ∧ ('<' ∉ l → stripTags l = l)
    ∧ ('>' ∉ l → stripTags ('<' :: l) = '<' :: stripTags l)
    ∧ stripTags ('<' :: '>' :: rest) = '<' :: '>' :: stripTags rest
    ∧ clean_subtitle_text "<i>Hello</i> world".data = "Hello world".data := by
  refine ⟨?_, fun h => stripTagsAux_no_lt l h, ?_, stripTags_empty_pair rest, by decide⟩
  · intro hne hgt
    have h1 : stripTags ('<' :: (mid ++ '>' :: rest)) =
        stripTagsAux (some ['<']) (mid ++ '>' :: rest) := by
      simp [stripTags, stripTagsAux]
    rw [h1, stripTagsAux_span mid ['<'] rest (by simp) hne hgt]
    rfl
  · intro hgt
    have h1 : stripTags ('<' :: l) = stripTagsAux (some ['<']) l := by
      simp [stripTags, stripTagsAux]
    rw [h1, stripTagsAux_no_gt ['<'] l hgt]
    rw [show stripTags l = l from stripTagsAux_no_gt_none l hgt]
    rfl

/-- Claim C8 counterexample: the code leaves the bodyless "<>" untouched,
while the claimed semantics — every span from a '<' up to the next '>' is
removed — deletes it. -/
theorem C8_counterexample :
    stripTags "<>".data ≠ stripSpansSpec "<>".data
    ∧ stripTags "<>".data = "<>".data
    ∧ stripSpansSpec "<>".data = [] := by decide

/-- Witness for C8_markup_stripping at concrete inputs. -/
theorem C8_witness :
    stripTags ('<' :: ("i".data ++ '>' :: "abc".data)) = stripTags "abc".data
    ∧ stripTags "ab".data = "ab".data :=
  ⟨(C8_markup_stripping "i".data "abc".data "ab".data).1 (by decide) (by decide),
   (C8_markup_stripping "i".data "abc".data "ab".data).2.1 (by decide)⟩

theorem flushState_current (s : ParseState) : (flushState s).current = [] := by
  by_cases h : s.current = []
  · simp [flushState, h]
  · simp [flushState, h]

theorem flushState_nil_current (ts : List (List Char)) (b : Bool) :
    flushState ⟨ts, [], b⟩ = ⟨ts, [], b⟩ := by
  simp [flushState]

theorem srtStep_blank (s : ParseState) :
    srtStep s [] = ⟨(flushState s).texts, [], false⟩ := by
  simp [srtStep, pyStrip, flushState_current]

theorem process_srt_lines_append_blank (ls : List (List Char)) :
    process_srt_lines (ls ++ [[]]) = process_srt_lines ls := by
  unfold process_srt_lines
  rw [List.foldl_append]
  rw [show List.foldl srtStep (List.foldl srtStep ⟨[], [], false⟩ ls) [[]] =
      srtStep (List.foldl srtStep ⟨[], [], false⟩ ls) [] from rfl]
  rw [srtStep_blank, flushState_nil_current]

/-- Claim C5: a final block not followed by a trailing blank line is still
yielded, normalized exactly as if a blank line followed (appending one blank
line never changes the parse), and the three-line example file yields exactly
["Hello world"]. -/
theorem C5_trailing_block (ls : List (List Char)) :
    process_srt_lines (ls ++ [[]]) = process_srt_lines ls
    ∧ process_srt_file
        ⟨[ "1".data, "00:00:01,000 --> 00:00:02,000".data, "Hello world".data ], false⟩ =
        [ "Hello world".data ] :=
  ⟨process_srt_lines_append_blank ls, by decide⟩

/-- Claim C4: a failing file contributes zero blocks — even when its lines
would otherwise have produced blocks — and the directory run continues around
it unchanged. -/
theorem C4_bad_file_isolated (pre post : List SrtFile) (bad : SrtFile)
    (h : bad.readFails = true) :
    process_srt_file bad = []
    ∧ all_subtitles (pre ++ bad :: post) = all_subtitles pre ++ all_subtitles post := by
  constructor
  · simp [process_srt_file, h]
  · simp [all_subtitles, process_srt_file, h]

/-- Witness for C4_bad_file_isolated at a concrete bad file whose lines would
otherwise have produced a block. -/
theorem C4_witness :
    process_srt_file demoBadFile = []
    ∧ all_subtitles ([⟨[ "Hi there".data ], false⟩] ++ demoBadFile :: [⟨[ "Yo".data ], false⟩]) =
        all_subtitles [⟨[ "Hi there".data ], false⟩] ++ all_subtitles [⟨[ "Yo".data ], false⟩]
    ∧ process_srt_lines demoBadFile.lines ≠ [] :=
  ⟨(C4_bad_file_isolated [] [] demoBadFile rfl).1,
   (C4_bad_file_isolated [⟨[ "Hi there".data ], false⟩] [⟨[ "Yo".data ], false⟩]
      demoBadFile rfl).2,
   by decide⟩

/-- Claim C2 evaluation: on the empty text the statistics do not fault, but
the mean, median and standard deviation over the empty length list are the
NaN numpy returns (modelled none) — not 0 and not a documented "not
applicable" sentinel. -/
theorem C2_empty_input_nan :
    total_sentences "" = 0
    ∧ average_sentence_length "" = none
    ∧ median_sentence_length "" = none
    ∧ sentence_length_std "" = none
    ∧ average_sentence_length "" ≠ some 0 := by
  have h : sentence_lengths "" = [] := by decide
  refine ⟨by decide, ?_, ?_, ?_, ?_⟩
  · simp [average_sentence_length, h, meanQ]
  · simp [median_sentence_length, h, medianQ]
  · simp [sentence_length_std, h]
  · simp [average_sentence_length, h, meanQ]

/-- Claim C6: the type-token ratio equals unique_words / total_words whenever
total_words is positive, equals exactly 0 when total_words is 0 (the explicit
conditional guard of line 40), and the reported value is its 4-decimal
rounding. -/
theorem C6_ttr_guard (t : String) :
    (0 < total_words t → ttr t = (unique_words t : ℚ) / (total_words t : ℚ))
    ∧ (total_words t = 0 → ttr t = 0)
    ∧ type_token_ratio t = roundQ 4 (ttr t) :=
  ⟨fun h => by simp [ttr, h], fun h => by simp [ttr, h], rfl⟩

/-- Witness for C6_ttr_guard at a text with words and at the empty text. -/
theorem C6_witness :
    ttr exText = (unique_words exText : ℚ) / (total_words exText : ℚ) ∧ ttr "" = 0 :=
  ⟨(C6_ttr_guard exText).1 (by decide), (C6_ttr_guard "").2.1 (by decide)⟩

theorem mem_dedupFirstAux {α : Type} [DecidableEq α] :
    ∀ (l seen : List α) (y : α), y ∈ dedupFirstAux seen l → y ∈ l ∧ y ∉ seen := by
  intro l
  induction l with
  | nil => intro seen y h; exact absurd h (List.not_mem_nil y)
  | cons x xs ih =>
    intro seen y h
    by_cases hx : x ∈ seen
    · simp only [dedupFirstAux, if_pos hx] at h
      obtain ⟨h1, h2⟩ := ih seen y h
      exact ⟨List.mem_cons_of_mem x h1, h2⟩
    · simp only [dedupFirstAux, if_neg hx] at h
      rcases List.mem_cons.mp h with he | hm
      · subst he; exact ⟨List.mem_cons_self y xs, hx⟩
      · obtain ⟨h1, h2⟩ := ih (x :: seen) y hm
        exact ⟨List.mem_cons_of_mem x h1, fun hs => h2 (List.mem_cons_of_mem x hs)⟩

theorem dedupFirstAux_nodup {α : Type} [DecidableEq α] :
    ∀ (l seen : List α), (dedupFirstAux seen l).Nodup := by
  intro l
  induction l with
  | nil => intro seen; simp [dedupFirstAux]
  | cons x xs ih =>
    intro seen
    by_cases hx : x ∈ seen
    · simp only [dedupFirstAux, if_pos hx]; exact ih seen
    · simp only [dedupFirstAux, if_neg hx]
      refine List.Nodup.cons ?_ (ih (x :: seen))
      intro hmem
      exact (mem_dedupFirstAux xs (x :: seen) x hmem).2 (List.mem_cons_self x seen)

theorem dedupFirstAux_middle {α : Type} [DecidableEq α] (x : α) :
    ∀ (l₁ seen l₂ : List α), (x ∈ l₁ ∨ x ∈ seen) →
      dedupFirstAux seen (l₁ ++ x :: l₂) = dedupFirstAux seen (l₁ ++ l₂) := by
  intro l₁
  induction l₁ with
  | nil =>
    intro seen l₂ h
    have hx : x ∈ seen := h.resolve_left (List.not_mem_nil x)
    simp [dedupFirstAux, hx]
  | cons y t ih =>
    intro seen l₂ h
    by_cases hy : y ∈ seen
    · have h2 : x ∈ t ∨ x ∈ seen := by
        rcases h with h | h
        · rcases List.mem_cons.mp h with he | ht
          · exact Or.inr (by rw [he]; exact hy)
          · exact Or.inl ht
        · exact Or.inr h
      simp only [List.cons_append, dedupFirstAux, if_pos hy]
      exact ih seen l₂ h2
    · have h2 : x ∈ t ∨ x ∈ y :: seen := by
        rcases h with h | h
        · rcases List.mem_cons.mp h with he | ht
          · exact Or.inr (by rw [he]; exact List.mem_cons_self y seen)
          · exact Or.inl ht
        · exact Or.inr (List.mem_cons_of_mem y h)
      simp only [List.cons_append, dedupFirstAux, if_neg hy]
      exact congrArg (y :: ·) (ih (y :: seen) l₂ h2)

theorem firstIdx_cons_self {α : Type} [DecidableEq α] (x : α) (l : List α) :
    firstIdx x (x :: l) = 0 := by
  simp [firstIdx]

theorem firstIdx_cons_ne {α : Type} [DecidableEq α] {x y : α} (l : List α) (h : y ≠ x) :
    firstIdx y (x :: l) = firstIdx y l + 1 := by
  simp only [firstIdx]
  rw [if_neg (show ¬x = y from fun hh => h hh.symm)]

theorem dedupFirstAux_pairwise {α : Type} [DecidableEq α] :
    ∀ (l seen : List α),
      (dedupFirstAux seen l).Pairwise fun a b => firstIdx a l < firstIdx b l := by
  intro l
  induction l with
  | nil => intro seen; simp [dedupFirstAux]
  | cons x xs ih =>
    intro seen
    by_cases hx : x ∈ seen
    · simp only [dedupFirstAux, if_pos hx]
      refine List.Pairwise.imp_of_mem ?_ (ih seen)
      intro a b ha hb hab
      have hane : a ≠ x := fun he => (mem_dedupFirstAux xs seen a ha).2 (by rw [he]; exact hx)
      have hbne : b ≠ x := fun he => (mem_dedupFirstAux xs seen b hb).2 (by rw [he]; exact hx)
      rw [firstIdx_cons_ne xs hane, firstIdx_cons_ne xs hbne]
      omega
    · simp only [dedupFirstAux, if_neg hx]
      refine List.Pairwise.cons ?_ ?_
      · intro b hb
        have hbne : b ≠ x := fun he => (mem_dedupFirstAux xs (x :: seen) b hb).2
          (by rw [he]; exact List.mem_cons_self x seen)
        rw [firstIdx_cons_self, firstIdx_cons_ne xs hbne]
        omega
      · refine List.Pairwise.imp_of_mem ?_ (ih (x :: seen))
        intro a b ha hb hab
        have hane : a ≠ x := fun he => (mem_dedupFirstAux xs (x :: seen) a ha).2
          (by rw [he]; exact List.mem_cons_self x seen)
        have hbne : b ≠ x := fun he => (mem_dedupFirstAux xs (x :: seen) b hb).2
          (by rw [he]; exact List.mem_cons_self x seen)
        rw [firstIdx_cons_ne xs hane, firstIdx_cons_ne xs hbne]
        omega

/-- Claim C3: the merger output and the persisted artifact lines are free of
exact duplicates; a string's position comes from its first occurrence in the
flattened file-order input — appearing again later changes nothing — and the
output entries are ordered by first-occurrence index. -/
theorem C3_dedup_first_seen (files : List SrtFile) (l₁ l₂ : List (List Char))
    (x : List Char) :
    (unique_subtitles files).Nodup
    ∧ (output_lines files).Nodup
    ∧ (x ∈ l₁ → dedupFirst (l₁ ++ x :: l₂) = dedupFirst (l₁ ++ l₂))
    ∧ (unique_subtitles files).Pairwise
        (fun a b => firstIdx a (all_subtitles files) < firstIdx b (all_subtitles files)) := by
  refine ⟨?_, ?_, fun hx => dedupFirstAux_middle x l₁ [] l₂ (Or.inl hx), ?_⟩
  · exact dedupFirstAux_nodup (all_subtitles files) []
  · exact (dedupFirstAux_nodup (all_subtitles files) []).filter _
  · exact dedupFirstAux_pairwise (all_subtitles files) []

/-- Witness for C3_dedup_first_seen: a repetition of "a" later in the input
does not change the deduplicated output. -/
theorem C3_witness :
    dedupFirst ([ "a".data, "b".data ] ++ "a".data :: [ "c".data ]) =
      dedupFirst ([ "a".data, "b".data ] ++ [ "c".data ]) :=
  (C3_dedup_first_seen [] [ "a".data, "b".data ] [ "c".data ] "a".data).2.2.1 (by decide)

theorem mem_firstKeys {α : Type} [DecidableEq α] {x : α} {l : List α} :
    x ∈ firstKeys l ↔ x ∈ l := by
  induction l with
  | nil => simp [firstKeys]
  | cons y ys ih =>
    by_cases h : x = y
    · subst h; simp [firstKeys]
    · simp [firstKeys, List.mem_filter, h, ih]

theorem firstKeys_nodup {α : Type} [DecidableEq α] (l : List α) : (firstKeys l).Nodup := by
  induction l with
  | nil => simp [firstKeys]
  | cons y ys ih =>
    refine List.Nodup.cons (fun hmem => ?_) (ih.filter _)
    have h2 := List.of_mem_filter hmem
    simp at h2

theorem countOcc_eq_zero {α : Type} [DecidableEq α] {x : α} {l : List α} (h : x ∉ l) :
    countOcc x l = 0 := by
  induction l with
  | nil => rfl
  | cons y ys ih =>
    have hy : ¬y = x := fun he => h (by rw [← he]; exact List.mem_cons_self y ys)
    have hr : x ∉ ys := fun hm => h (List.mem_cons_of_mem y hm)
    simp [countOcc, hy, ih hr]

theorem countOcc_pos {α : Type} [DecidableEq α] {x : α} {l : List α} (h : x ∈ l) :
    1 ≤ countOcc x l := by
  induction l with
  | nil => exact absurd h (List.not_mem_nil x)
  | cons y ys ih =>
    by_cases hy : y = x
    · simp [countOcc, hy]
    · have hm : x ∈ ys := (List.mem_cons.mp h).resolve_left fun he => hy he.symm
      have h2 := ih hm
      simpa [countOcc, hy] using h2

theorem filter_ne_of_not_mem {α : Type} [DecidableEq α] {x : α} {K : List α} (h : x ∉ K) :
    (K.filter fun y => !decide (y = x)) = K := by
  apply List.filter_eq_self.mpr
  intro a ha
  simp only [Bool.not_eq_true', decide_eq_false_iff_not]
  exact fun he => h (he ▸ ha)

theorem sum_filter_ne {α : Type} [DecidableEq α] (f : α → ℕ) (x : α) :
    ∀ K : List α, K.Nodup → x ∈ K →
      (K.map f).sum = f x + ((K.filter fun y => !decide (y = x)).map f).sum := by
  intro K
  induction K with
  | nil => intro _ h; exact absurd h (List.not_mem_nil x)
  | cons y t ih =>
    intro hnd hx
    have hyt : y ∉ t := (List.nodup_cons.mp hnd).1
    have hnt : t.Nodup := (List.nodup_cons.mp hnd).2
    by_cases hy : y = x
    · subst hy
      have h1 : (t.filter fun z => !decide (z = y)) = t := filter_ne_of_not_mem hyt
      rw [List.map_cons, List.sum_cons, List.filter_cons]
      rw [show (!decide (y = y)) = false by simp]
      rw [if_neg Bool.false_ne_true, h1]
    · have hxt : x ∈ t := (List.mem_cons.mp hx).resolve_left fun he => hy he.symm
      have h2 := ih hnt hxt
      rw [List.map_cons, List.sum_cons, List.filter_cons]
      rw [show (!decide (y = x)) = true by simp [hy]]
      rw [if_pos rfl, List.map_cons, List.sum_cons, h2]
      omega

theorem sum_firstKeys_countOcc {α : Type} [DecidableEq α] :
    ∀ m : List α, (((firstKeys m).map fun k => countOcc k m)).sum = m.length := by
  intro m
  induction m with
  | nil => rfl
  | cons x xs ih =>
    have hcong : ((firstKeys xs).filter fun y => !decide (y = x)).map
        (fun k => countOcc k (x :: xs)) =
        ((firstKeys xs).filter fun y => !decide (y = x)).map fun k => countOcc k xs := by
      apply List.map_congr_left
      intro a ha
      have h3 := List.of_mem_filter ha
      simp only [Bool.not_eq_true', decide_eq_false_iff_not] at h3
      have hne : ¬x = a := fun hh => h3 hh.symm
      simp [countOcc, hne]
    have hx0 : countOcc x (x :: xs) = 1 + countOcc x xs := by simp [countOcc]
    simp only [firstKeys, List.map_cons, List.sum_cons, hcong, List.length_cons, hx0]
    by_cases hx : x ∈ xs
    · have hs : ((firstKeys xs).map fun k => countOcc k xs).sum =
          countOcc x xs + (((firstKeys xs).filter fun y => !decide (y = x)).map
            fun k => countOcc k xs).sum := by
        have h0 := sum_filter_ne (fun k => countOcc k xs) x (firstKeys xs)
          (firstKeys_nodup xs) (mem_firstKeys.mpr hx)
        simpa using h0
      omega
    · have h0 : countOcc x xs = 0 := countOcc_eq_zero hx
      have hff : ((firstKeys xs).filter fun y => !decide (y = x)) = firstKeys xs :=
        filter_ne_of_not_mem fun hm => hx (mem_firstKeys.mp hm)
      rw [hff]
      omega

theorem counterItems_map_fst {α : Type} [DecidableEq α] (l : List α) :
    (counterItems l).map Prod.fst = firstKeys l := by
  have h : (Prod.fst ∘ fun x : α => (x, countOcc x l)) = id := by
    funext a; rfl
  rw [counterItems, List.map_map, h, List.map_id]

theorem counterItems_map_snd {α : Type} [DecidableEq α] (l : List α) :
    (counterItems l).map Prod.snd = (firstKeys l).map fun k => countOcc k l := by
  have h : (Prod.snd ∘ fun x : α => (x, countOcc x l)) = fun k => countOcc k l := by
    funext a; rfl
  rw [counterItems, List.map_map, h]

theorem sum_counterItems {α : Type} [DecidableEq α] (l : List α) :
    ((counterItems l).map Prod.snd).sum = l.length := by
  rw [counterItems_map_snd, sum_firstKeys_countOcc]

/-- Claim C10: the sentence-length distribution is consistent with the basic
statistics — its counts sum to total_sentences, every count is at least 1, and
its keys are exactly the per-sentence word counts occurring in the text. -/
theorem C10_distribution_consistency (t : String) (k : ℕ) :
    ((sentence_length_distribution t).map Prod.snd).sum = total_sentences t
    ∧ (sentence_length_distribution t).all (fun p => decide (1 ≤ p.2))
    ∧ (k ∈ (sentence_length_distribution t).map Prod.fst ↔ k ∈ sentence_lengths t) := by
  refine ⟨?_, ?_, ?_⟩
  · rw [show sentence_length_distribution t = counterItems (sentence_lengths t) from rfl,
      sum_counterItems]
    simp [sentence_lengths, total_sentences]
  · apply List.all_eq_true.mpr
    intro p hp
    simp only [decide_eq_true_eq]
    have hmem : p ∈ (firstKeys (sentence_lengths t)).map
        fun x => (x, countOcc x (sentence_lengths t)) := hp
    obtain ⟨a, ha, hpa⟩ := List.mem_map.mp hmem
    have hal : a ∈ sentence_lengths t := mem_firstKeys.mp ha
    rw [← hpa]
    exact countOcc_pos hal
  · rw [show (sentence_length_distribution t).map Prod.fst =
        firstKeys (sentence_lengths t) from counterItems_map_fst _]
    exact mem_firstKeys

theorem mem_insertDesc {α : Type} (x y : α × ℕ) (l : List (α × ℕ)) :
    y ∈ insertDesc x l ↔ y = x ∨ y ∈ l := by
  induction l with
  | nil => simp [insertDesc]
  | cons h t ih =>
    by_cases hc : x.2 < h.2
    · simp only [insertDesc, if_pos hc, List.mem_cons, ih]
      tauto
    · simp only [insertDesc, if_neg hc, List.mem_cons]

theorem pairwise_insertDesc {α : Type} (x : α × ℕ) (l : List (α × ℕ))
    (h : l.Pairwise fun a b => b.2 ≤ a.2) :
    (insertDesc x l).Pairwise fun a b => b.2 ≤ a.2 := by
  induction l with
  | nil => simp [insertDesc]
  | cons hd t ih =>
    have hhd : ∀ b ∈ t, b.2 ≤ hd.2 := fun b hb => List.rel_of_pairwise_cons h hb
    have ht : t.Pairwise fun a b => b.2 ≤ a.2 := h.of_cons
    by_cases hc : x.2 < hd.2
    · simp only [insertDesc, if_pos hc]
      refine List.Pairwise.cons ?_ (ih ht)
      intro b hb
      rcases (mem_insertDesc x b t).mp hb with he | hm
      · rw [he]; omega
      · exact hhd b hm
    · simp only [insertDesc, if_neg hc]
      refine List.Pairwise.cons ?_ h
      intro b hb
      rcases List.mem_cons.mp hb with he | hm
      · rw [he]; omega
      · have := hhd b hm; omega

theorem pairwise_sortDesc {α : Type} (l : List (α × ℕ)) :
    (sortDesc l).Pairwise fun a b => b.2 ≤ a.2 := by
  induction l with
  | nil => simp [sortDesc]
  | cons x xs ih => exact pairwise_insertDesc x (sortDesc xs) ih

theorem perm_insertDesc {α : Type} (x : α × ℕ) (l : List (α × ℕ)) :
    (insertDesc x l).Perm (x :: l) := by
  induction l with
  | nil => exact List.Perm.refl _
  | cons h t ih =>
    by_cases hc : x.2 < h.2
    · simp only [insertDesc, if_pos hc]
      exact (ih.cons h).trans (List.Perm.swap x h t)
    · simp only [insertDesc, if_neg hc]
      exact List.Perm.refl _

theorem perm_sortDesc {α : Type} (l : List (α × ℕ)) : (sortDesc l).Perm l := by
  induction l with
  | nil => exact List.Perm.refl []
  | cons x xs ih => exact (perm_insertDesc x (sortDesc xs)).trans (ih.cons x)

theorem filter_insertDesc {α : Type} (x : α × ℕ) (c : ℕ) :
    ∀ l : List (α × ℕ), (insertDesc x l).filter (fun p => decide (p.2 = c)) =
      if x.2 = c then x :: l.filter (fun p => decide (p.2 = c))
      else l.filter (fun p => decide (p.2 = c)) := by
  intro l
  induction l with
  | nil =>
    by_cases hx : x.2 = c
    · simp [insertDesc, List.filter_cons, hx]
    · simp [insertDesc, List.filter_cons, hx]
  | cons h t ih =>
    by_cases hc : x.2 < h.2
    · simp only [insertDesc, if_pos hc, List.filter_cons, ih]
      by_cases hx : x.2 = c
      · have hh : ¬h.2 = c := by omega
        simp [hx, hh]
      · simp [hx]
    · simp only [insertDesc, if_neg hc, List.filter_cons]
      by_cases hx : x.2 = c
      · simp [hx]
      · simp [hx]

theorem filter_sortDesc {α : Type} (c : ℕ) :
    ∀ l : List (α × ℕ), (sortDesc l).filter (fun p => decide (p.2 = c)) =
      l.filter (fun p => decide (p.2 = c)) := by
  intro l
  induction l with
  | nil => rfl
  | cons x xs ih =>
    show (insertDesc x (sortDesc xs)).filter _ = _
    rw [filter_insertDesc x c (sortDesc xs), List.filter_cons]
    by_cases hx : x.2 = c
    · rw [if_pos hx, ih]
      rw [show (decide (x.2 = c)) = true by simp [hx], if_pos rfl]
    · rw [if_neg hx, ih]
      rw [show (decide (x.2 = c)) = false by simp [hx], if_neg Bool.false_ne_true]

theorem filter_take_extends {α : Type} (p : α → Bool) :
    ∀ (l : List α) (n : ℕ), ∃ ts, (l.take n).filter p ++ ts = l.filter p := by
  intro l
  induction l with
  | nil => intro n; exact ⟨[], by simp⟩
  | cons x xs ih =>
    intro n
    cases n with
    | zero => exact ⟨(x :: xs).filter p, by simp⟩
    | succ m =>
      obtain ⟨ts, hts⟩ := ih m
      by_cases hx : p x = true
      · exact ⟨ts, by simp [List.take_succ_cons, List.filter_cons, hx, hts]⟩
      · exact ⟨ts, by simp [List.take_succ_cons, List.filter_cons, hx, hts]⟩

theorem firstKeys_pairwise_firstIdx {α : Type} [DecidableEq α] (l : List α) :
    (firstKeys l).Pairwise fun a b => firstIdx a l < firstIdx b l := by
  induction l with
  | nil => simp [firstKeys]
  | cons y ys ih =>
    refine List.Pairwise.cons ?_ ?_
    · intro b hb
      have h3 := List.of_mem_filter hb
      simp only [Bool.not_eq_true', decide_eq_false_iff_not] at h3
      rw [firstIdx_cons_self, firstIdx_cons_ne ys h3]
      omega
    · refine List.Pairwise.imp_of_mem ?_ (ih.filter _)
      intro a b ha hb hab
      have h3a := List.of_mem_filter ha
      simp only [Bool.not_eq_true', decide_eq_false_iff_not] at h3a
      have h3b := List.of_mem_filter hb
      simp only [Bool.not_eq_true', decide_eq_false_iff_not] at h3b
      rw [firstIdx_cons_ne ys h3a, firstIdx_cons_ne ys h3b]
      omega

/-- Claim C7: the word-frequency table is ranked descending by count, each
entry carries the true occurrence count of its distinct word, no word repeats,
ties stay in first-appearance order (for every count value, the table rows with
that count extend to the first-seen-ordered Counter rows with that count, and
the Counter rows are ordered by first-occurrence index), the caller default is
top 20, and the report uses top 10. -/
theorem C7_word_frequency_ranking (t : String) (n c : ℕ) :
    (word_frequency t n).Pairwise (fun a b => b.2 ≤ a.2)
    ∧ (word_frequency t n).all (fun p => decide (p.2 = countOcc p.1 (tokenize t)))
    ∧ ((word_frequency t n).map Prod.fst).Nodup
    ∧ (∃ ts, (word_frequency t n).filter (fun p => decide (p.2 = c)) ++ ts =
        (counterItems (tokenize t)).filter (fun p => decide (p.2 = c)))
    ∧ ((counterItems (tokenize t)).map Prod.fst).Pairwise
        (fun a b => firstIdx a (tokenize t) < firstIdx b (tokenize t))
    ∧ word_frequency_default t = word_frequency t 20
    ∧ report_word_frequency t = word_frequency t 10 := by
  refine ⟨?_, ?_, ?_, ?_, ?_, rfl, rfl⟩
  · exact List.Pairwise.sublist (List.take_sublist n _)
      (pairwise_sortDesc (counterItems (tokenize t)))
  · apply List.all_eq_true.mpr
    intro p hp
    simp only [decide_eq_true_eq]
    have hp2 : p ∈ sortDesc (counterItems (tokenize t)) := List.take_subset n _ hp
    have hp3 : p ∈ counterItems (tokenize t) :=
      (perm_sortDesc (counterItems (tokenize t))).mem_iff.mp hp2
    obtain ⟨a, _, hpa⟩ := List.mem_map.mp hp3
    rw [← hpa]
  · have hperm : ((sortDesc (counterItems (tokenize t))).map Prod.fst).Perm
        ((counterItems (tokenize t)).map Prod.fst) :=
      (perm_sortDesc (counterItems (tokenize t))).map Prod.fst
    have hnd : ((sortDesc (counterItems (tokenize t))).map Prod.fst).Nodup := by
      rw [hperm.nodup_iff, counterItems_map_fst]
      exact firstKeys_nodup _
    have heq : (word_frequency t n).map Prod.fst =
        ((sortDesc (counterItems (tokenize t))).map Prod.fst).take n :=
      List.map_take Prod.fst (sortDesc (counterItems (tokenize t))) n
    rw [heq]
    exact List.Sublist.nodup (List.take_sublist n _) hnd
  · obtain ⟨ts, hts⟩ := filter_take_extends (fun p => decide (p.2 = c))
      (sortDesc (counterItems (tokenize t))) n
    refine ⟨ts, ?_⟩
    rw [show word_frequency t n = (sortDesc (counterItems (tokenize t))).take n from rfl,
      hts, filter_sortDesc]
  · rw [counterItems_map_fst]
    exact firstKeys_pairwise_firstIdx (tokenize t)

/-- Claim C9 (amended): the report outputs — counts, means, ratio, frequency
table, length distribution — are identical across runs regardless of the
external classifier's behaviour, and the full outputs including the
per-sentence language tags are identical whenever the classifier answers the
same on every sentence.  Unconditional determinism of the language tags does
not hold, because the classifier is an external, unseeded collaborator. -/
theorem C9_determinism_relative (d₁ d₂ : List Char → Option (List Char)) (t : String) :
    (analyzer_outputs d₁ t).1 = (analyzer_outputs d₂ t).1
    ∧ (analyzer_outputs d₁ t).2.1 = (analyzer_outputs d₂ t).2.1
    ∧ (analyzer_outputs d₁ t).2.2.1 = (analyzer_outputs d₂ t).2.2.1
    ∧ ((∀ s ∈ split_into_sentences t, d₁ s = d₂ s) →
        analyzer_outputs d₁ t = analyzer_outputs d₂ t) := by
  refine ⟨rfl, rfl, rfl, fun h => ?_⟩
  unfold analyzer_outputs detect_languages
  have hmapeq : (split_into_sentences t).map (fun s => (d₁ s).getD unknownKey) =
      (split_into_sentences t).map fun s => (d₂ s).getD unknownKey :=
    List.map_congr_left fun s hs => by rw [h s hs]
  rw [hmapeq]

/-- Claim C9 counterexample: two runs on the identical input "Hi." in which
the external classifier returns "en" in one run and fails in the other yield
different analyzer outputs (the language tags differ). -/
theorem C9_counterexample :
    analyzer_outputs (fun _ => some "en".data) "Hi." ≠
      analyzer_outputs (fun _ => none) "Hi." := by
  intro h
  have h4 := congrArg (fun x => x.2.2.2) h
  simp only [analyzer_outputs] at h4
  exact absurd h4 (by decide)

/-- Witness for C9_determinism_relative: a run compared with itself. -/
theorem C9_witness :
    analyzer_outputs (fun _ => some "en".data) "Hi." =
      analyzer_outputs (fun _ => some "en".data) "Hi." :=
  (C9_determinism_relative (fun _ => some "en".data) (fun _ => some "en".data) "Hi.").2.2.2
    fun _ _ => rfl

theorem roundQ_of_floor_lt (d : ℕ) (q : ℚ) (f : ℤ) (h1 : ⌊q * 10 ^ d⌋ = f)
    (h2 : q * 10 ^ d - (f : ℚ) < 1 / 2) :
    roundQ d q = (f : ℚ) / 10 ^ d := by
  unfold roundQ rheQ
  rw [h1, if_pos h2]

/-- Claim C1: the statistics example on the text "Cats run. Dogs run fast!
Cats run." — word tokens, total and unique counts, type-token ratio 4/7
reported as 0.5714, the three sentences, lengths [2, 3, 2], mean reported as
2.33, median 2.0, and top-2 word frequencies [(run, 3), (cats, 2)]. -/
theorem C1_statistics_example :
    tokenize exText = [ "cats".data, "run".data, "dogs".data, "run".data,
      "fast".data, "cats".data, "run".data ]
    ∧ total_words exText = 7
    ∧ unique_words exText = 4
    ∧ ttr exText = 4 / 7
    ∧ type_token_ratio exText = 5714 / 10000
    ∧ split_into_sentences exText =
        [ "Cats run".data, "Dogs run fast".data, "Cats run".data ]
    ∧ total_sentences exText = 3
    ∧ sentence_lengths exText = [2, 3, 2]
    ∧ average_sentence_length exText = some (233 / 100)
    ∧ median_sentence_length exText = some 2
    ∧ word_frequency exText 2 = [( "run".data, 3), ( "cats".data, 2)] := by
  have h7 : total_words exText = 7 := by decide
  have h4 : unique_words exText = 4 := by decide
  have hlen : sentence_lengths exText = [2, 3, 2] := by decide
  have httr : ttr exText = 4 / 7 := by
    unfold ttr
    rw [h7, h4, if_pos (by norm_num)]
    norm_num
  refine ⟨by decide, h7, h4, httr, ?_, by decide, by decide, hlen, ?_, ?_, by decide⟩
  · unfold type_token_ratio
    rw [httr]
    have hfl : ⌊(4 / 7 : ℚ) * 10 ^ 4⌋ = 5714 := by
      rw [show (4 / 7 : ℚ) * 10 ^ 4 = 40000 / 7 by norm_num]
      rw [Int.floor_eq_iff]; norm_num
    rw [roundQ_of_floor_lt 4 (4 / 7) 5714 hfl (by
      rw [show (4 / 7 : ℚ) * 10 ^ 4 = 40000 / 7 by norm_num]
      norm_num)]
    norm_num
  · unfold average_sentence_length
    rw [hlen]
    have hmean : meanQ [2, 3, 2] = some (7 / 3) := by
      unfold meanQ
      rw [if_neg (by decide : ¬([2, 3, 2] : List ℕ) = [])]
      norm_num
    rw [hmean, Option.map_some']
    have hfl : ⌊(7 / 3 : ℚ) * 10 ^ 2⌋ = 233 := by
      rw [show (7 / 3 : ℚ) * 10 ^ 2 = 700 / 3 by norm_num]
      rw [Int.floor_eq_iff]; norm_num
    rw [roundQ_of_floor_lt 2 (7 / 3) 233 hfl (by
      rw [show (7 / 3 : ℚ) * 10 ^ 2 = 700 / 3 by norm_num]
      norm_num)]
    norm_num
  · unfold median_sentence_length
    rw [hlen]
    have hmed : medianQ [2, 3, 2] = some 2 := by
      unfold medianQ
      rw [if_neg (by decide : ¬([2, 3, 2] : List ℕ) = [])]
      norm_num [sortAsc, insertAsc, List.getD]
    rw [hmed, Option.map_some']
    have hfl : ⌊(2 : ℚ) * 10 ^ 2⌋ = 200 := by norm_num
    rw [roundQ_of_floor_lt 2 2 200 hfl (by norm_num)]
    norm_num
